import Mathlib

/-!
Verification of the AdapterRemoval pipeline scheduler header
(src/src/scheduler.h).

The header contains the complete inline implementations of the
statistics_sink<T> template (lines 275-333) and of the non-virtual
members of analytical_step (lines 339-353).  These are embedded below
as pure Lean functions: the pool m_sinks (a std::list<T*>) becomes a
Lean list whose head is the front of the std::list, and sink objects
are represented by an arbitrary type alpha, so that both object
identity (pointer) facts and content (fold) facts can be stated.

The scheduler worker loop itself lives in scheduler.cc, which is not
among the sources; the parts of the development that concern it are
transition systems modelled from the specification and are marked
as such in their doc comments.
-/

namespace AdapterRemoval

/-! Embedding of statistics_sink<T> (scheduler.h lines 275-333). -/

namespace statistics_sink

variable {α : Type}

/-- get_sink (scheduler.h lines 292-304): under the pool lock, if
m_sinks is empty return new_sink(); otherwise take the front element,
pop it, and return it.  The state is the list m_sinks (head = front);
the result pairs the returned sink with the new pool. -/
def get_sink (new_sink : α) (m_sinks : List α) : α × List α :=
  match m_sinks with
  | [] => (new_sink, [])
  | ptr :: rest => (ptr, rest)

/-- return_sink (scheduler.h lines 307-312): under the pool lock,
push_back the returned pointer onto m_sinks. -/
def return_sink (m_sinks : List α) (ptr : α) : List α :=
  m_sinks ++ [ptr]

/-- The while loop of finalize (scheduler.h lines 326-330): repeatedly
combine the current result with the back of the remaining pool and pop
it.  Taking the back of the remaining pool each time is the same as
walking the reversed pool front to back, so the loop is phrased over
that reversed remainder. -/
def finalize_loop (comb : α → α → α) (result : α) : List α → α
  | [] => result
  | x :: xs => finalize_loop comb (comb result x) xs

/-- finalize (scheduler.h lines 315-333): under the pool lock, if
m_sinks is empty return new_sink(); otherwise take the back element as
the initial result, pop it, and run the while loop combining in the
remaining elements back to front, leaving the pool empty.  The result
pairs the returned sink with the pool left behind. -/
def finalize (comb : α → α → α) (new_sink : α) (m_sinks : List α) : α × List α :=
  match m_sinks.reverse with
  | [] => (new_sink, [])
  | result :: rest => (finalize_loop comb result rest, [])

/-- Performing n get_sink calls in a row: returns the list of acquired
sinks together with the final pool. -/
def acquires (new_sink : α) : Nat → List α → List α × List α
  | 0, m_sinks => ([], m_sinks)
  | n + 1, m_sinks =>
    let p := get_sink new_sink m_sinks
    let q := acquires new_sink n p.2
    (p.1 :: q.1, q.2)

theorem finalize_loop_eq_foldl (comb : α → α → α) (result : α) (l : List α) :
    finalize_loop comb result l = List.foldl comb result l := by
  induction l generalizing result with
  | nil => rfl
  | cons x xs ih => simp [finalize_loop, List.foldl, ih]

end statistics_sink

/-! Embedding of analytical_step (scheduler.h lines 123-187, 339-353). -/

/-- The ordering enum of analytical_step (scheduler.h lines 126-131). -/
inductive ordering where
  | ordered
  | unordered
deriving DecidableEq, Repr

/-- State of an analytical_step base object: the two private fields
m_step_order and m_file_io (scheduler.h lines 182-187).  They are
private, and no member function of the class assigns to them after
construction, so the base-object state of a step is exactly this
record. -/
structure analytical_step where
  m_step_order : ordering
  m_file_io : Bool
deriving DecidableEq, Repr

/-- Modelled from the spec: the body of the constructor
analytical_step(ordering step_order, bool file_io) lives in
scheduler.cc, which is not among the sources; only its declaration
(scheduler.h line 140, including the default value of the second
argument) is.  Per the spec the two descriptors are fixed at
construction, so the constructor stores its two arguments in the
private fields m_step_order and m_file_io, which no member function
ever writes afterwards (visible in the header: the fields are private
and no other member assigns them). -/
def analytical_step.construct (step_order : ordering) (fio : Bool) : analytical_step :=
  ⟨step_order, fio⟩

/-- Construction without supplying the file-IO argument: the
declaration on scheduler.h line 140 gives it the default value
false. -/
def analytical_step.construct_default (step_order : ordering) : analytical_step :=
  analytical_step.construct step_order false

/-- get_ordering (scheduler.h lines 344-347): returns m_step_order. -/
def analytical_step.get_ordering (s : analytical_step) : ordering :=
  s.m_step_order

/-- The const accessor for the file-IO flag (scheduler.h lines
350-353): returns m_file_io. -/
def analytical_step.io_flag (s : analytical_step) : Bool :=
  s.m_file_io

/-- The base-class finalize (scheduler.h lines 339-341): its body is
empty, so as a transformation of the base-object state it is the
identity. -/
def analytical_step.finalize (s : analytical_step) : analytical_step :=
  s

/-- The operations callable on an analytical_step base object after
construction: finalize (empty body) and the two const accessors.  The
virtual process member is implemented by subclasses and cannot assign
to the private base fields, so it does not appear as a mutator of this
state. -/
inductive step_op where
  | finalize_op
  | get_ordering_op
  | io_flag_op
deriving DecidableEq, Repr

/-- Effect of one operation on the base-object state: finalize has an
empty body and the accessors are const, so each leaves the state
unchanged. -/
def analytical_step.run_op (s : analytical_step) : step_op → analytical_step
  | step_op.finalize_op => s.finalize
  | step_op.get_ordering_op => s
  | step_op.io_flag_op => s

/-- Effect of a sequence of operations on the base-object state. -/
def analytical_step.run_ops (s : analytical_step) (ops : List step_op) : analytical_step :=
  ops.foldl analytical_step.run_op s

/-! Theorems about statistics_sink. -/

namespace statistics_sink

variable {α : Type}

theorem foldl_comb_foldr (comb : α → α → α)
    (hassoc : ∀ a b c : α, comb (comb a b) c = comb a (comb b c))
    (ys : List α) (y x : α) :
    comb (List.foldl comb y ys) x = comb y (List.foldr comb x ys) := by
  induction ys generalizing y with
  | nil => rfl
  | cons z zs ih => simp [List.foldl, List.foldr, ih, hassoc]

theorem finalize_of_reverse_cons (comb : α → α → α) (d : α) (s : List α)
    (r : α) (rest : List α) (h : s.reverse = r :: rest) :
    finalize comb d s = (finalize_loop comb r rest, []) := by
  unfold finalize
  rw [h]

/-- C1 counterexample: with the associative but non-commutative combine
given by list concatenation, and a pool holding s1 = [0] at the front
and s2 = [1] at the back, finalize returns s2 ++ s1 = [1, 0], which is
not the left fold s1 ++ s2 = [0, 1] of the pool. -/
theorem finalize_not_left_fold :
    (∀ a b c : List Nat, (a ++ b) ++ c = a ++ (b ++ c)) ∧
    (finalize (fun a b => a ++ b) ([] : List Nat) [[0], [1]]).1 ≠
      List.foldl (fun a b => a ++ b) [0] [[1]] :=
  ⟨fun a b c => List.append_assoc a b c, by decide⟩

/-- C1 (amended): for a non-empty pool s1 :: rest, finalize returns the
fold of the pool in reverse order, sn + s(n-1) + ... + s1, under an
associative combine: equivalently the right fold that begins from the
front element s1 and consumes the remaining elements back to front. -/
theorem finalize_eq_reverse_fold (comb : α → α → α)
    (hassoc : ∀ a b c : α, comb (comb a b) c = comb a (comb b c))
    (d x : α) (xs : List α) :
    (finalize comb d (x :: xs)).1 = List.foldr comb x xs.reverse := by
  cases h : xs.reverse with
  | nil =>
    have hx : xs = [] := by simpa using congrArg List.reverse h
    subst hx
    simp [finalize, finalize_loop]
  | cons y ys =>
    have hrev : (x :: xs).reverse = y :: (ys ++ [x]) := by
      rw [List.reverse_cons, h]
      rfl
    rw [finalize_of_reverse_cons comb d (x :: xs) y (ys ++ [x]) hrev]
    rw [finalize_loop_eq_foldl, List.foldl_append]
    simp only [List.foldl_cons, List.foldl_nil, List.foldr_cons]
    exact foldl_comb_foldr comb hassoc ys y x

/-- Witness for the amended C1 at a concrete input: natural-number
addition is associative, and finalize over the pool [1, 2, 3] returns
the reverse-order fold starting from the front element 1. -/
theorem finalize_eq_reverse_fold_witness :
    (finalize (fun a b => a + b) 0 [1, 2, 3]).1 =
      List.foldr (fun a b => a + b) 1 (List.reverse [2, 3]) :=
  finalize_eq_reverse_fold (fun a b => a + b)
    (fun a b c => Nat.add_assoc a b c) 0 1 [2, 3]

/-- C2: get_sink on an empty pool returns the freshly constructed sink
from the subclass hook new_sink with the pool still empty, and on a
non-empty pool it returns an element of the pool, namely the front,
which is removed: the old pool is exactly the returned element followed
by the new pool. -/
theorem get_sink_spec (d : α) (s : List α) :
    (s = [] → get_sink d s = (d, [])) ∧
    (s ≠ [] → (get_sink d s).1 ∈ s ∧ s = (get_sink d s).1 :: (get_sink d s).2) := by
  cases s with
  | nil => exact ⟨fun _ => rfl, fun h => absurd rfl h⟩
  | cons p rest =>
    refine ⟨fun h => List.noConfusion h, fun _ => ⟨?_, rfl⟩⟩
    simp [get_sink]

/-- Witness for C2 at concrete inputs: an empty pool yields the fresh
sink 9, and the pool [5, 7] yields its front element. -/
theorem get_sink_spec_witness :
    (get_sink 9 ([] : List Nat) = (9, []) ∧
     ((get_sink 9 [5, 7]).1 ∈ [5, 7] ∧
      [5, 7] = (get_sink 9 [5, 7]).1 :: (get_sink 9 [5, 7]).2)) :=
  ⟨(get_sink_spec 9 []).1 rfl, (get_sink_spec 9 [5, 7]).2 (by decide)⟩

/-- C3: after finalize the pool is empty, in both branches of the
implementation, so a subsequent get_sink finds no previously released
instance and must construct a fresh one via the new_sink hook. -/
theorem finalize_drains_pool (comb : α → α → α) (d d2 : α) (s : List α) :
    (finalize comb d s).2 = [] ∧
    get_sink d2 (finalize comb d s).2 = (d2, []) := by
  have h2 : (finalize comb d s).2 = [] := by
    unfold finalize
    split <;> rfl
  exact ⟨h2, by rw [h2]; rfl⟩

/-- C8: finalize on an empty pool does not fail: it takes the empty
branch and returns the freshly constructed sink from the new_sink
hook, with the pool left empty. -/
theorem finalize_empty_pool (comb : α → α → α) (d : α) :
    finalize comb d ([] : List α) = (d, []) := rfl

theorem return_sink_foldl (l ps : List α) :
    List.foldl return_sink l ps = l ++ ps := by
  induction ps generalizing l with
  | nil => simp
  | cons p rest ih => simp [List.foldl, return_sink, ih]

theorem acquires_all (d : α) (s : List α) :
    acquires d s.length s = (s, []) := by
  induction s with
  | nil => rfl
  | cons p rest ih => simp [acquires, get_sink, ih]

/-- C9: the pool is a FIFO of object identities: return_sink appends
to the back and get_sink removes the front, so releasing p1, ..., pk
into an empty pool and then acquiring k times yields exactly
p1, ..., pk in release order, leaving the pool empty.  In particular a
single release into an empty pool followed by an acquire returns the
very same object. -/
theorem pool_fifo (d : α) (ps : List α) :
    acquires d ps.length (List.foldl return_sink [] ps) = (ps, []) := by
  rw [return_sink_foldl]
  simpa using acquires_all d ps

end statistics_sink

/-! Theorems about analytical_step. -/

theorem analytical_step.run_op_id (s : analytical_step) (op : step_op) :
    s.run_op op = s := by
  cases op <;> rfl

theorem analytical_step.run_ops_id (s : analytical_step) (ops : List step_op) :
    s.run_ops ops = s := by
  induction ops with
  | nil => rfl
  | cons op rest ih =>
    show List.foldl analytical_step.run_op (s.run_op op) rest = s
    rw [analytical_step.run_op_id]
    exact ih

/-- C4: the two descriptors are fixed at construction: after any
sequence of operations on the step, get_ordering still returns the
ordering passed to the constructor and the file-IO accessor still
returns the flag passed to the constructor. -/
theorem descriptors_constant (o : ordering) (b : Bool) (ops : List step_op) :
    (analytical_step.run_ops (analytical_step.construct o b) ops).get_ordering = o ∧
    (analytical_step.run_ops (analytical_step.construct o b) ops).io_flag = b := by
  rw [analytical_step.run_ops_id]
  exact ⟨rfl, rfl⟩

/-- C5: the default finalize of the base class has an empty body: it
performs no action, leaving the whole base-object state, and in
particular the ordering and file-IO descriptors, unchanged. -/
theorem finalize_step_noop (s : analytical_step) :
    s.finalize = s ∧
    s.finalize.get_ordering = s.get_ordering ∧
    s.finalize.io_flag = s.io_flag :=
  ⟨rfl, rfl, rfl⟩

/-- C10: a step constructed without supplying the file-IO argument
uses the declared default value false, so its file-IO accessor returns
false. -/
theorem construct_default_no_io (o : ordering) :
    (analytical_step.construct_default o).io_flag = false := rfl

/-! Scheduler worker-loop model.

Modelled from the spec: the worker loop of section 4.4.2 (the
implementation file scheduler.cc is not among the sources; scheduler.h
lines 195-269 only declare the class, with m_queue_calc, m_queue_io and
m_io_active at lines 261-266).  All queue and flag manipulations happen
under the single queue lock, so the system is an interleaving of atomic
transitions: a worker claims an IO step only when io_active is false,
setting it true (loop step 3); a worker claims a calc step whenever the
calc queue is non-empty (loop step 4); a worker finishing an IO step
resets io_active (loop step 7); steps may become runnable and be pushed
onto either queue at any time.  Steps on the queues are identified by
their step id (a natural number). -/

structure sched_state where
  io_active : Bool
  io_running : Nat
  calc_running : Nat
  io_queue : List Nat
  calc_queue : List Nat
deriving DecidableEq, Repr

/-- Modelled from the spec: the atomic transitions of the worker loop
of section 4.4.2, taken under the queue lock.  io_running counts the
workers currently executing a step whose file-IO flag is true, and
calc_running those executing a compute step. -/
inductive sched_step : sched_state → sched_state → Prop where
  | claim_io (r c i : Nat) (qi qc : List Nat) :
      sched_step ⟨false, r, c, i :: qi, qc⟩ ⟨true, r + 1, c, qi, qc⟩
  | claim_calc (b : Bool) (r c j : Nat) (qi qc : List Nat) :
      sched_step ⟨b, r, c, qi, j :: qc⟩ ⟨b, r, c + 1, qi, qc⟩
  | finish_io (b : Bool) (r c : Nat) (qi qc : List Nat) :
      sched_step ⟨b, r + 1, c, qi, qc⟩ ⟨false, r, c, qi, qc⟩
  | finish_calc (b : Bool) (r c : Nat) (qi qc : List Nat) :
      sched_step ⟨b, r, c + 1, qi, qc⟩ ⟨b, r, c, qi, qc⟩
  | enqueue_io (b : Bool) (r c j : Nat) (qi qc : List Nat) :
      sched_step ⟨b, r, c, qi, qc⟩ ⟨b, r, c, qi ++ [j], qc⟩
  | enqueue_calc (b : Bool) (r c j : Nat) (qi qc : List Nat) :
      sched_step ⟨b, r, c, qi, qc⟩ ⟨b, r, c, qi, qc ++ [j]⟩

/-- Initial scheduler state: no step running, io_active false, empty
queues. -/
def sched_init : sched_state :=
  ⟨false, 0, 0, [], []⟩

/-- The inductive invariant for IO exclusion: at most one IO worker,
and none at all while io_active is false. -/
def sched_inv (s : sched_state) : Prop :=
  s.io_running ≤ 1 ∧ (s.io_active = false → s.io_running = 0)

theorem sched_inv_preserved {s t : sched_state}
    (hstep : sched_step s t) (hinv : sched_inv s) : sched_inv t := by
  cases hstep with
  | claim_io r c i qi qc =>
    have hr : r = 0 := hinv.2 rfl
    subst hr
    exact ⟨Nat.le_refl 1, fun h => Bool.noConfusion h⟩
  | claim_calc b r c j qi qc => exact hinv
  | finish_io b r c qi qc =>
    have hr : r = 0 := Nat.le_zero.mp (Nat.le_of_succ_le_succ hinv.1)
    subst hr
    exact ⟨Nat.zero_le 1, fun _ => rfl⟩
  | finish_calc b r c qi qc => exact hinv
  | enqueue_io b r c j qi qc => exact hinv
  | enqueue_calc b r c j qi qc => exact hinv

/-- C6: in every state reachable by the worker loop from the initial
state, at most one worker is executing a step whose file-IO flag is
true (compute steps are unconstrained and may overlap with it). -/
theorem at_most_one_io_worker (s : sched_state)
    (h : Relation.ReflTransGen sched_step sched_init s) :
    s.io_running ≤ 1 := by
  have hinv : sched_inv s := by
    induction h with
    | refl => exact ⟨Nat.zero_le 1, fun _ => rfl⟩
    | tail hab hbc ih => exact sched_inv_preserved hbc ih
  exact hinv.1

/-- Witness for C6: the state reached by enqueuing one IO step and
claiming it is reachable, and there at most one IO worker runs. -/
theorem at_most_one_io_worker_witness :
    sched_state.io_running ⟨true, 1, 0, [], []⟩ ≤ 1 :=
  at_most_one_io_worker ⟨true, 1, 0, [], []⟩
    (Relation.ReflTransGen.tail
      (Relation.ReflTransGen.tail Relation.ReflTransGen.refl
        (sched_step.enqueue_io false 0 0 0 [] []))
      (sched_step.claim_io 0 0 0 [] []))

/-! Ordered-step delivery model.

Modelled from the spec: execution of an ordered step (sections 4.4.3
and 3; scheduler.cc is not among the sources, scheduler.h lines
126-131 only define the ordering enum and lines 254-255 declare the
chunk counter).  An ordered step keeps a buffer of pending
(sequence number, chunk) pairs and a counter next_expected_seq; a
dispatch pops the chunk whose sequence number equals
next_expected_seq, increments the counter, and hands the chunk to
process.  Chunks may arrive in any order.  The consumed list records,
for each consumption event in order, the sequence number consumed and
the value of next_expected_seq at that moment. -/

structure ordered_state where
  buffer : List (Nat × Nat)
  next_expected_seq : Nat
  consumed : List (Nat × Nat)
deriving DecidableEq, Repr

/-- Modelled from the spec: transitions of an ordered step under the
queue lock: arrival of a chunk with any sequence number, and
consumption of the chunk whose sequence number equals
next_expected_seq. -/
inductive ordered_step : ordered_state → ordered_state → Prop where
  | insert (s : ordered_state) (p : Nat × Nat) :
      ordered_step s ⟨s.buffer ++ [p], s.next_expected_seq, s.consumed⟩
  | consume (s : ordered_state) (p : Nat × Nat) (hp : p ∈ s.buffer)
      (hseq : p.1 = s.next_expected_seq) :
      ordered_step s
        ⟨s.buffer.erase p, s.next_expected_seq + 1,
         s.consumed ++ [(p.1, s.next_expected_seq)]⟩

/-- Initial state of an ordered step: empty buffer, counter at zero,
nothing consumed. -/
def ordered_init : ordered_state :=
  ⟨[], 0, []⟩

/-- The inductive invariant for ordered delivery: the consumed
sequence numbers are exactly 0, 1, ..., next_expected_seq - 1 in that
order, and each consumption happened exactly at the then-current
next_expected_seq. -/
def ordered_inv (s : ordered_state) : Prop :=
  s.consumed.map Prod.fst = List.range s.next_expected_seq ∧
  ∀ q ∈ s.consumed, q.1 = q.2

theorem ordered_inv_preserved {s t : ordered_state}
    (hstep : ordered_step s t) (hinv : ordered_inv s) : ordered_inv t := by
  cases hstep with
  | insert p => exact hinv
  | consume p hp hseq =>
    constructor
    · show (s.consumed ++ [(p.1, s.next_expected_seq)]).map Prod.fst =
        List.range (s.next_expected_seq + 1)
      rw [List.map_append, hinv.1, List.range_succ, hseq]
      rfl
    · intro q hq
      rcases List.mem_append.mp hq with hq1 | hq2
      · exact hinv.2 q hq1
      · have : q = (p.1, s.next_expected_seq) := List.mem_singleton.mp hq2
        rw [this]
        exact hseq

theorem consumed_get_fst {l : List (Nat × Nat)} {n : Nat}
    (hm : l.map Prod.fst = List.range n) (j : Nat) (hj : j < l.length) :
    (l.get ⟨j, hj⟩).1 = j := by
  have hb : j < (l.map Prod.fst).length := by simpa using hj
  have h2 := List.getElem_of_eq hm hb
  rw [List.getElem_map, List.getElem_range] at h2
  simpa using h2

/-- C7: in every reachable state of an ordered step, every consumption
event took the chunk whose sequence number equalled the
next_expected_seq counter at that moment, and the consumed sequence
numbers grow by exactly one from each consumption to the next, so the
step observes its inputs in the exact ascending sequence-number
order. -/
theorem ordered_consumption (s : ordered_state)
    (h : Relation.ReflTransGen ordered_step ordered_init s) :
    (∀ q ∈ s.consumed, q.1 = q.2) ∧
    (∀ (i : Nat) (hi : i + 1 < s.consumed.length),
      (s.consumed.get ⟨i + 1, hi⟩).1 =
        (s.consumed.get ⟨i, Nat.lt_of_succ_lt hi⟩).1 + 1) := by
  have hinv : ordered_inv s := by
    induction h with
    | refl => exact ⟨rfl, fun q hq => absurd hq (List.not_mem_nil q)⟩
    | tail hab hbc ih => exact ordered_inv_preserved hbc ih
  refine ⟨hinv.2, ?_⟩
  intro i hi
  rw [consumed_get_fst hinv.1 (i + 1) hi,
    consumed_get_fst hinv.1 i (Nat.lt_of_succ_lt hi)]

/-- Witness for C7: the state reached by inserting chunks with
sequence numbers 1 and 0 (out of order) and consuming both is
reachable, and its consumption trace satisfies the ordered-delivery
property. -/
theorem ordered_consumption_witness :
    (∀ q ∈ (ordered_state.consumed ⟨[], 2, [(0, 0), (1, 1)]⟩), q.1 = q.2) ∧
    (∀ (i : Nat)
      (hi : i + 1 < (ordered_state.consumed ⟨[], 2, [(0, 0), (1, 1)]⟩).length),
      ((ordered_state.consumed ⟨[], 2, [(0, 0), (1, 1)]⟩).get ⟨i + 1, hi⟩).1 =
        ((ordered_state.consumed ⟨[], 2, [(0, 0), (1, 1)]⟩).get
          ⟨i, Nat.lt_of_succ_lt hi⟩).1 + 1) :=
  ordered_consumption ⟨[], 2, [(0, 0), (1, 1)]⟩
    (Relation.ReflTransGen.tail
      (Relation.ReflTransGen.tail
        (Relation.ReflTransGen.tail
          (Relation.ReflTransGen.tail Relation.ReflTransGen.refl
            (ordered_step.insert ordered_init (1, 10)))
          (ordered_step.insert ⟨[(1, 10)], 0, []⟩ (0, 20)))
        (ordered_step.consume ⟨[(1, 10), (0, 20)], 0, []⟩ (0, 20)
          (by decide) rfl))
      (ordered_step.consume ⟨[(1, 10)], 1, [(0, 0)]⟩ (1, 10)
        (by decide) rfl))

end AdapterRemoval
